import Mathlib

/-!
Verification of the event/callback scheduling layer of the whisker client
(whisker/api.py), shallowly embedded in Lean.

Strings are modelled as List Char. Python int counters are Nat; flash
counts are Int (the source asserts count > 0). The command channel
(whisker_immsend_fn) is modelled by an environment that decides, per
command, whether the send raises; commands are a structured type holding
exactly the arguments the source passes to the send function.
-/

namespace Whisker

/-- Decimal digit characters, fuel-bounded so the recursion is
structural: with enough fuel this is the usual most-significant-first
decimal representation. -/
def decCharsGo (fuel n : Nat) : List Char :=
  match fuel with
  | 0 => []
  | fuel + 1 =>
      if n < 10 then [Char.ofNat (48 + n)]
      else decCharsGo fuel (n / 10) ++ [Char.ofNat (48 + n % 10)]

/-- Decimal digit characters of a natural number, most significant first.
Models Python str(n) for nonnegative n; n itself always bounds the
recursion depth, so the fuel never runs out. -/
def decChars (n : Nat) : List Char :=
  decCharsGo (n + 1) n

/-- Models Python str.replace applied with a single space and the empty
string: removes every space character. -/
def stripSpaces (s : List Char) : List Char :=
  s.filter (fun c => !(c == ' '))

/-- Models Python "_".join over already-stringified pieces. -/
def joinUnderscore : List (List Char) → List Char
  | [] => []
  | [x] => x
  | x :: y :: xs => x ++ '_' :: joinUnderscore (y :: xs)

/-- Modelled from the spec: the command names of whisker/constants.py
(absent from src/), spec section 6: TimerSetEvent and LineSetState, and
the ON/OFF values. Commands record the exact arguments handed to the
immediate-send function; Cmd.message is a raw message send (the action
registered by send_after_delay). -/
inductive Cmd where
  | timerSetEvent (duration_ms : Nat) (reload_count : Nat) (event : List Char)
  | lineSetState (line : Nat) (val : List Char)
  | message (m : List Char)
deriving DecidableEq, Repr

/-- Modelled from the spec: VAL_ON of whisker/constants.py. -/
def VAL_ON : List Char := ['o', 'n']

/-- Modelled from the spec: VAL_OFF of whisker/constants.py. -/
def VAL_OFF : List Char := ['o', 'f', 'f']

/-- A registered callback, deeply embedded so registrations can be
inspected: the message send bound by send_after_delay, the
flash_line_ping_pong closure with its pre-bound arguments, or an
arbitrary task callback identified by a tag. -/
inductive Action where
  | sendMsg (msg : List Char)
  | pingPong (line : Nat) (on_now : Bool) (seq : List Nat)
  | custom (tag : Nat)
deriving DecidableEq, Repr

/-- Modelled from the spec: a CallbackRegistration (spec section 3):
event name plus pre-bound action; single_shot is always true in scope and
is therefore omitted. -/
structure Registration where
  event : List Char
  action : Action
deriving DecidableEq, Repr

/-- The channel environment: send_fails c is true when attempting to send
c makes the immediate-send function raise. -/
structure Env where
  send_fails : Cmd → Bool

/-- Errors: invalidArgument models the AssertionError from the count
guard; transportFailure models a raise inside the immediate-send. -/
inductive Err where
  | invalidArgument
  | transportFailure
deriving DecidableEq, Repr

/-- State of one WhiskerApi instance: the configured system-event prefix
(field sysevent_pfx models sysevent_prefix), the mint counter, and the
flat ordered list of one-shot registrations held by the CallbackHandler. -/
structure ApiState where
  sysevent_pfx : List Char
  sysevent_counter : Nat
  callback_handler : List Registration
deriving DecidableEq, Repr

/-- Outcome of one API operation: resulting state, commands actually sent
(in order), callbacks invoked (paired with their registered event name),
and whether the operation raised. Side effects performed before a raise
persist, as in Python. -/
structure Eff where
  state : ApiState
  sent : List Cmd
  invoked : List (List Char × Action)
  err : Option Err
deriving DecidableEq, Repr

/-- Sequencing: run the second operation only when the first did not
raise, accumulating sends and invocations. -/
def Eff.andThen (e1 : Eff) (f : ApiState → Eff) : Eff :=
  match e1.err with
  | some _ => e1
  | none =>
      let e2 := f e1.state
      ⟨e2.state, e1.sent ++ e2.sent, e1.invoked ++ e2.invoked, e2.err⟩

/-- WhiskerApi.get_new_sysevent: increments the counter first, then
builds prefix + "_".join(str(x) for x in [counter] + args) with spaces
stripped from the joined part. Tokens arrive already stringified. -/
def get_new_sysevent (s : ApiState) (args : List (List Char)) :
    List Char × ApiState :=
  let c := s.sysevent_counter + 1
  (s.sysevent_pfx ++ stripSpaces (joinUnderscore (decChars c :: args)),
   { s with sysevent_counter := c })

/-- The immediate send: emits the command, or raises when the channel
fails on it. -/
def immsend (env : Env) (s : ApiState) (c : Cmd) : Eff :=
  if env.send_fails c then ⟨s, [], [], some Err.transportFailure⟩
  else ⟨s, [c], [], none⟩

/-- WhiskerApi.timer_set_event. -/
def timer_set_event (env : Env) (s : ApiState) (event : List Char)
    (duration_ms : Nat) (reload_count : Nat) : Eff :=
  immsend env s (Cmd.timerSetEvent duration_ms reload_count event)

/-- WhiskerApi.line_set_state. -/
def line_set_state (env : Env) (s : ApiState) (line : Nat) (onb : Bool) :
    Eff :=
  immsend env s (Cmd.lineSetState line (if onb then VAL_ON else VAL_OFF))

/-- WhiskerApi.line_on. -/
def line_on (env : Env) (s : ApiState) (line : Nat) : Eff :=
  line_set_state env s line true

/-- WhiskerApi.line_off. -/
def line_off (env : Env) (s : ApiState) (line : Nat) : Eff :=
  line_set_state env s line false

/-- Modelled from the spec: CallbackHandler.add_single of
whisker/callback.py (absent from src/), spec section 4.2: appends a
one-shot registration under the event name. -/
def add_single (s : ApiState) (event : List Char) (a : Action) :
    ApiState :=
  { s with callback_handler := s.callback_handler ++ [⟨event, a⟩] }

/-- The token list "call" used when call_after_delay mints a name. -/
def callTok : List (List Char) := [['c', 'a', 'l', 'l']]

/-- The token list "send", msg used when send_after_delay mints a name. -/
def sendTok (msg : List Char) : List (List Char) :=
  [['s', 'e', 'n', 'd'], msg]

/-- Models the Python idiom event = event or self.get_new_sysevent(...):
a falsy (empty) event argument is replaced by a freshly minted name. -/
def effEvent (s : ApiState) (mint_args : List (List Char))
    (event : List Char) : List Char × ApiState :=
  if event = [] then get_new_sysevent s mint_args else (event, s)

/-- WhiskerApi.call_after_delay: a falsy (empty) event argument is
replaced by a freshly minted name with token "call"; then the remote
timer is armed and, only if that send succeeded, the callback is
registered. The Python *args are pre-bound inside the Action. -/
def call_after_delay (env : Env) (s : ApiState) (delay_ms : Nat)
    (callback : Action) (event : List Char) : Eff :=
  let p := effEvent s callTok event
  (timer_set_event env p.2 p.1 delay_ms 0).andThen fun s =>
    ⟨add_single s p.1 callback, [], [], none⟩

/-- WhiskerApi.send_after_delay: a falsy (empty) event argument is
replaced by a freshly minted name with tokens "send" and the message;
then the remote timer is armed and, only if that send succeeded, the
message send is registered. -/
def send_after_delay (env : Env) (s : ApiState) (delay_ms : Nat)
    (msg : List Char) (event : List Char) : Eff :=
  let p := effEvent s (sendTok msg) event
  (timer_set_event env p.2 p.1 delay_ms 0).andThen fun s =>
    ⟨add_single s p.1 (Action.sendMsg msg), [], [], none⟩

/-- The pair (on_now, timing_sequence) built by WhiskerApi.flash_line_pulses
(api.py lines 58-69): Python list repetition (count - 1) * [a, b] is
join of replicate. -/
def timingPlan (count : Int) (on_ms off_ms : Nat) (on_at_rest : Bool) :
    Bool × List Nat :=
  if on_at_rest then
    (false, off_ms :: List.flatten (List.replicate (count - 1).toNat [on_ms, off_ms]))
  else
    (true, on_ms :: List.flatten (List.replicate (count - 1).toNat [off_ms, on_ms]))

/-- WhiskerApi.flash_line_ping_pong: set the line now; if the sequence is
exhausted stop, otherwise pop the first duration, mint an event name from
the line and the next polarity, and register the continuation with the
negated polarity via call_after_delay. -/
def flash_line_ping_pong (env : Env) (s : ApiState) (line : Nat)
    (on_now : Bool) (timing_sequence : List Nat) : Eff :=
  (if on_now then line_on env s line else line_off env s line).andThen
    fun s =>
      match timing_sequence with
      | [] => ⟨s, [], [], none⟩
      | delay_ms :: rest =>
          let p := get_new_sysevent s
            [decChars line,
             if on_now then ['o', 'f', 'f'] else ['o', 'n']]
          call_after_delay env p.2 delay_ms
            (Action.pingPong line (!on_now) rest) p.1

/-- WhiskerApi.flash_line_pulses: asserts count > 0, builds the
alternating timing sequence, starts the ping-pong run and returns the sum
of the sequence. The returned value is none when the call raised. -/
def flash_line_pulses (env : Env) (s : ApiState) (line : Nat)
    (count : Int) (on_ms off_ms : Nat) (on_at_rest : Bool) :
    Option Nat × Eff :=
  if count ≤ 0 then (none, ⟨s, [], [], some Err.invalidArgument⟩)
  else
    let p := timingPlan count on_ms off_ms on_at_rest
    let total_duration_ms := p.2.sum
    let e := flash_line_ping_pong env s line p.1 p.2
    (if e.err = none then some total_duration_ms else none, e)

/-- Run one dispatched action: the bound message send sends the message;
a ping-pong continuation runs flash_line_ping_pong; an arbitrary task
callback touches neither channel nor registry. -/
def runAction (env : Env) (s : ApiState) : Action → Eff
  | Action.sendMsg msg => immsend env s (Cmd.message msg)
  | Action.pingPong line on_now seq =>
      flash_line_ping_pong env s line on_now seq
  | Action.custom _ => ⟨s, [], [], none⟩

/-- Run the dispatched registrations in registration order, recording
each invocation; a raise stops the remainder, as in Python. -/
def runRegs (env : Env) (s : ApiState) : List Registration → Eff
  | [] => ⟨s, [], [], none⟩
  | r :: rs =>
      let e1 := runAction env s r.action
      match e1.err with
      | some er => ⟨e1.state, e1.sent, [(r.event, r.action)], some er⟩
      | none =>
          let e2 := runRegs env e1.state rs
          ⟨e2.state, e1.sent ++ e2.sent,
           (r.event, r.action) :: e2.invoked, e2.err⟩

/-- The registrations held under one event name, in registration order. -/
def matchedRegs (s : ApiState) (event : List Char) : List Registration :=
  s.callback_handler.filter (fun r => r.event == event)

/-- The state with every registration under the event name removed. -/
def removeRegs (s : ApiState) (event : List Char) : ApiState :=
  { s with callback_handler :=
      s.callback_handler.filter (fun r => !(r.event == event)) }

/-- Modelled from the spec: CallbackHandler.process_event of
whisker/callback.py (absent from src/), spec sections 3 and 4.2: the
registrations under the event name are removed atomically with their
dispatch, invoked in registration order, and their number is returned (0
when none exist). The count is none when an invoked action raised. -/
def process_event (env : Env) (s : ApiState) (event : List Char) :
    Option Nat × Eff :=
  let matched := matchedRegs s event
  let e := runRegs env (removeRegs s event) matched
  (if e.err = none then some matched.length else none, e)

/-- WhiskerApi.process_backend_event: dispatches through the handler and
returns whether at least one callback fired or the name starts with the
system-event prefix. The boolean is none when the dispatch raised. -/
def process_backend_event (env : Env) (s : ApiState) (event : List Char) :
    Option Bool × Eff :=
  let (n, e) := process_event env s event
  match n with
  | none => (none, e)
  | some n_called =>
      (some (decide (0 < n_called) || s.sysevent_pfx.isPrefixOf event), e)


/-! Concrete instances used by counterexamples and witnesses: a channel
that never fails, one that always fails, and a fresh session state with
the default prefix. -/

def envOk : Env := ⟨fun _ => false⟩

def envBad : Env := ⟨fun _ => true⟩

def sysState : ApiState := ⟨['s', 'y', 's', '_'], 0, []⟩

/-! Helper lemmas about repeated lists, used for the timing sequence. -/

lemma flatten_replicate_length {α : Type} (n : Nat) (l : List α) :
    (List.flatten (List.replicate n l)).length = n * l.length := by
  induction n with
  | zero => simp
  | succ k ih => simp [List.replicate_succ, ih, Nat.succ_mul]; omega

lemma flatten_replicate_sum (n : Nat) (l : List Nat) :
    (List.flatten (List.replicate n l)).sum = n * l.sum := by
  induction n with
  | zero => simp
  | succ k ih => simp [List.replicate_succ, ih, Nat.succ_mul]; omega

/-- The first command a flash step sends is the immediate line toggle. -/
lemma ping_pong_sent_head (env : Env) (s : ApiState) (line : Nat)
    (on_now : Bool) (seq : List Nat)
    (h : env.send_fails
      (Cmd.lineSetState line (if on_now then VAL_ON else VAL_OFF)) = false) :
    (flash_line_ping_pong env s line on_now seq).sent.head? =
      some (Cmd.lineSetState line (if on_now then VAL_ON else VAL_OFF)) := by
  cases on_now <;>
    simp_all [flash_line_ping_pong, line_on, line_off, line_set_state,
      immsend, Eff.andThen]

/-- Timing sums: the sequence built for the off-at-rest polarity. -/
lemma timing_sum_off_rest (count : Int) (on_ms off_ms : Nat)
    (h : 1 ≤ count) :
    (timingPlan count on_ms off_ms false).2.sum =
      count.toNat * on_ms + (count.toNat - 1) * off_ms := by
  obtain ⟨d, hd⟩ : ∃ d, count.toNat = d + 1 := ⟨count.toNat - 1, by omega⟩
  have hd2 : (count - 1).toNat = d := by omega
  simp [timingPlan, flatten_replicate_sum, hd, hd2]
  ring

/-- Timing sums: the sequence built for the on-at-rest polarity. -/
lemma timing_sum_on_rest (count : Int) (on_ms off_ms : Nat)
    (h : 1 ≤ count) :
    (timingPlan count on_ms off_ms true).2.sum =
      count.toNat * off_ms + (count.toNat - 1) * on_ms := by
  obtain ⟨d, hd⟩ : ∃ d, count.toNat = d + 1 := ⟨count.toNat - 1, by omega⟩
  have hd2 : (count - 1).toNat = d := by omega
  simp [timingPlan, flatten_replicate_sum, hd, hd2]
  ring

/-- The two rest polarities give different totals when the on and off
durations differ. -/
lemma totals_ne (c on_ms off_ms : Nat) (hc : 1 ≤ c)
    (hne : on_ms ≠ off_ms) :
    c * on_ms + (c - 1) * off_ms ≠ c * off_ms + (c - 1) * on_ms := by
  obtain ⟨d, rfl⟩ : ∃ d, c = d + 1 := ⟨c - 1, by omega⟩
  have h1 : (d + 1) * on_ms = d * on_ms + on_ms := by ring
  have h2 : (d + 1) * off_ms = d * off_ms + off_ms := by ring
  simp only [Nat.add_sub_cancel]
  rw [h1, h2]
  generalize d * on_ms = x
  generalize d * off_ms = y
  omega

/-- C2: for every count at least 1, flash_line_pulses builds the timing
sequence on_ms followed by count-1 copies of off_ms, on_ms with the first
toggle turning the line ON when on_at_rest is false; off_ms followed by
count-1 copies of on_ms, off_ms with the first toggle turning the line
OFF when on_at_rest is true; and in both cases the sequence has length
2 * count - 1. -/
theorem flash_timing_plan_spec (count : Int) (on_ms off_ms : Nat)
    (on_at_rest : Bool) (h : 1 ≤ count) :
    timingPlan count on_ms off_ms false =
      (true, on_ms ::
        List.flatten (List.replicate (count - 1).toNat [off_ms, on_ms]))
    ∧ timingPlan count on_ms off_ms true =
      (false, off_ms ::
        List.flatten (List.replicate (count - 1).toNat [on_ms, off_ms]))
    ∧ (timingPlan count on_ms off_ms on_at_rest).2.length =
        2 * count.toNat - 1
    ∧ ∀ env s line,
        env.send_fails (Cmd.lineSetState line
          (if on_at_rest then VAL_OFF else VAL_ON)) = false →
        (flash_line_pulses env s line count on_ms off_ms
            on_at_rest).2.sent.head? =
          some (Cmd.lineSetState line
            (if on_at_rest then VAL_OFF else VAL_ON)) := by
  refine ⟨by simp [timingPlan], by simp [timingPlan], ?_, ?_⟩
  · cases on_at_rest <;>
      simp [timingPlan, flatten_replicate_length] <;> omega
  · intro env s line hsend
    have hknot : ¬count ≤ 0 := by omega
    have hplan : (timingPlan count on_ms off_ms on_at_rest).1 =
        !on_at_rest := by
      cases on_at_rest <;> simp [timingPlan]
    have := ping_pong_sent_head env s line
      (timingPlan count on_ms off_ms on_at_rest).1
      (timingPlan count on_ms off_ms on_at_rest).2 ?_
    · simp only [flash_line_pulses, if_neg hknot]
      rw [this, hplan]
      cases on_at_rest <;> simp
    · rw [hplan]
      cases on_at_rest <;> simpa using hsend

/-- Witness for flash_timing_plan_spec at count 4, durations 100 and 200,
off at rest, on the never-failing channel. -/
theorem flash_timing_plan_spec_witness :
    (1 : Int) ≤ 4 ∧
    (timingPlan 4 100 200 false).2.length = 2 * (4 : Int).toNat - 1 ∧
    (flash_line_pulses envOk sysState 3 4 100 200 false).2.sent.head? =
      some (Cmd.lineSetState 3 VAL_ON) :=
  ⟨by decide, (flash_timing_plan_spec 4 100 200 false (by decide)).2.2.1,
   by
     have := (flash_timing_plan_spec 4 100 200 false
       (by decide)).2.2.2 envOk sysState 3 (by decide)
     simpa using this⟩

/-- C10: the value returned by flash_line_pulses is the exact sum of the
sequence it starts: count * on_ms + (count - 1) * off_ms when off at
rest, count * off_ms + (count - 1) * on_ms when on at rest, and the two
totals differ whenever on_ms differs from off_ms. -/
theorem flash_total_duration_formula (env : Env) (s : ApiState)
    (line : Nat) (count : Int) (on_ms off_ms : Nat) (h : 1 ≤ count) :
    ((flash_line_pulses env s line count on_ms off_ms false).2.err =
        none →
      (flash_line_pulses env s line count on_ms off_ms false).1 =
        some (count.toNat * on_ms + (count.toNat - 1) * off_ms))
    ∧ ((flash_line_pulses env s line count on_ms off_ms true).2.err =
        none →
      (flash_line_pulses env s line count on_ms off_ms true).1 =
        some (count.toNat * off_ms + (count.toNat - 1) * on_ms))
    ∧ (on_ms ≠ off_ms →
        count.toNat * on_ms + (count.toNat - 1) * off_ms ≠
          count.toNat * off_ms + (count.toNat - 1) * on_ms) := by
  have hknot : ¬count ≤ 0 := by omega
  refine ⟨?_, ?_, fun hne => totals_ne count.toNat on_ms off_ms
    (by omega) hne⟩
  · intro herr
    simp only [flash_line_pulses, if_neg hknot] at herr ⊢
    rw [if_pos herr, timing_sum_off_rest count on_ms off_ms h]
  · intro herr
    simp only [flash_line_pulses, if_neg hknot] at herr ⊢
    rw [if_pos herr, timing_sum_on_rest count on_ms off_ms h]

/-- Witness for flash_total_duration_formula at count 4, durations 100
and 200 on the never-failing channel. -/
theorem flash_total_duration_formula_witness :
    (1 : Int) ≤ 4 ∧
    (flash_line_pulses envOk sysState 3 4 100 200 false).1 =
      some ((4 : Int).toNat * 100 + ((4 : Int).toNat - 1) * 200) :=
  ⟨by decide,
   (flash_total_duration_formula envOk sysState 3 4 100 200
     (by decide)).1 (by decide)⟩

/-- C3 counterexample: the call with on_at_rest true returns total 1100,
not the 1000 the claim asserts. -/
theorem flash_rest_on_total_counterexample :
    (flash_line_pulses envOk sysState 3 4 100 200 true).1 = some 1100 ∧
    ¬(flash_line_pulses envOk sysState 3 4 100 200 true).1 =
      some 1000 := by
  decide

/-- C3 amended: flash_line_pulses with line 3, count 4, on 100 ms, off
200 ms, off at rest returns 1000 for the 7-step sequence 100, 200, 100,
200, 100, 200, 100 with first toggle ON; the same call with on at rest
has the same step count 7 and first toggle OFF but returns 1100. -/
theorem flash_pulses_concrete_totals :
    (flash_line_pulses envOk sysState 3 4 100 200 false).1 = some 1000 ∧
    (timingPlan 4 100 200 false).2 =
      [100, 200, 100, 200, 100, 200, 100] ∧
    (timingPlan 4 100 200 false).1 = true ∧
    (timingPlan 4 100 200 false).2.length = 7 ∧
    (flash_line_pulses envOk sysState 3 4 100 200 true).1 = some 1100 ∧
    (timingPlan 4 100 200 true).1 = false ∧
    (timingPlan 4 100 200 true).2.length = 7 := by
  decide

/-- Dispatch invokes something exactly when a registration matched. -/
lemma runRegs_invoked_nil_iff (env : Env) (s : ApiState)
    (l : List Registration) : (runRegs env s l).invoked = [] ↔ l = [] := by
  cases l with
  | nil => simp [runRegs]
  | cons r rs =>
      simp only [runRegs]
      cases h : (runAction env s r.action).err <;> simp [h]

/-- C1: when process_backend_event returns a boolean, that boolean is
true exactly when at least one registered callback fired for the event
or the name starts with the system-event prefix; in particular a
prefixed name with zero registrations yields true. -/
theorem process_backend_event_consumed_iff (env : Env) (s : ApiState)
    (event : List Char) (b : Bool)
    (h : (process_backend_event env s event).1 = some b) :
    (b = true ↔
      (¬(process_backend_event env s event).2.invoked = [] ∨
        s.sysevent_pfx <+: event)) ∧
    (matchedRegs s event = [] →
      (process_backend_event env s event).1 =
        some (s.sysevent_pfx.isPrefixOf event)) := by
  constructor
  · by_cases herr :
      (runRegs env (removeRegs s event) (matchedRegs s event)).err = none
    · simp only [process_backend_event, process_event, if_pos herr] at h ⊢
      injection h with h
      subst h
      simp [runRegs_invoked_nil_iff, List.isPrefixOf_iff_prefix,
        List.length_pos]
    · simp only [process_backend_event, process_event, if_neg herr] at h
      exact absurd h (by simp)
  · intro hm
    simp [process_backend_event, process_event, hm, runRegs]

/-- Witness for process_backend_event_consumed_iff: a prefixed event
name with no registration is consumed. -/
theorem process_backend_event_consumed_iff_witness :
    (process_backend_event envOk sysState
      ['s', 'y', 's', '_', 'q']).1 = some true ∧
    (true = true ↔
      (¬(process_backend_event envOk sysState
          ['s', 'y', 's', '_', 'q']).2.invoked = [] ∨
        sysState.sysevent_pfx <+: ['s', 'y', 's', '_', 'q'])) :=
  ⟨by decide,
   (process_backend_event_consumed_iff envOk sysState
     ['s', 'y', 's', '_', 'q'] true (by decide)).1⟩

/-- C5: when the send arming the remote timer raises, call_after_delay
and send_after_delay propagate the error, send nothing, and leave the
registry exactly as it was. -/
theorem transport_failure_rolls_back (env : Env) (s : ApiState)
    (delay_ms : Nat) (cb : Action) (msg event : List Char) :
    (env.send_fails (Cmd.timerSetEvent delay_ms 0
        (effEvent s callTok event).1) = true →
      (call_after_delay env s delay_ms cb event).err =
          some Err.transportFailure ∧
      (call_after_delay env s delay_ms cb
          event).state.callback_handler = s.callback_handler ∧
      (call_after_delay env s delay_ms cb event).sent = []) ∧
    (env.send_fails (Cmd.timerSetEvent delay_ms 0
        (effEvent s (sendTok msg) event).1) = true →
      (send_after_delay env s delay_ms msg event).err =
          some Err.transportFailure ∧
      (send_after_delay env s delay_ms msg
          event).state.callback_handler = s.callback_handler ∧
      (send_after_delay env s delay_ms msg event).sent = []) := by
  constructor <;> intro hf <;>
    refine ⟨?_, ?_, ?_⟩ <;>
    simp only [call_after_delay, send_after_delay, timer_set_event,
      immsend, hf, if_pos, Eff.andThen] <;>
    simp [effEvent] <;>
    split <;> simp [get_new_sysevent]

/-- Witness for transport_failure_rolls_back on the always-failing
channel. -/
theorem transport_failure_rolls_back_witness :
    envBad.send_fails (Cmd.timerSetEvent 5 0
      (effEvent sysState callTok ['e']).1) = true ∧
    (call_after_delay envBad sysState 5 (Action.custom 0) ['e']).err =
      some Err.transportFailure ∧
    (call_after_delay envBad sysState 5 (Action.custom 0)
      ['e']).state.callback_handler = sysState.callback_handler ∧
    (call_after_delay envBad sysState 5 (Action.custom 0) ['e']).sent =
      [] := by
  have t := (transport_failure_rolls_back envBad sysState 5
    (Action.custom 0) ['m'] ['e']).1 (by decide)
  exact ⟨by decide, t.1, t.2.1, t.2.2⟩

/-- C6 counterexample: a scheduling call given an empty event name is
not rejected; it completes without error. -/
theorem empty_event_not_rejected :
    (call_after_delay envOk sysState 5 (Action.custom 0) []).err =
      none ∧
    (send_after_delay envOk sysState 5 ['m'] []).err = none := by
  decide

/-- C6 amended: a flash request with count at most 0 fails with
InvalidArgument synchronously before any remote command is issued,
while a scheduling call given an empty event name is not rejected: it
mints a fresh name and registers under it. -/
theorem invalid_count_rejected_empty_event_minted (env : Env)
    (s : ApiState) (line : Nat) (count : Int) (on_ms off_ms : Nat)
    (on_at_rest : Bool) (delay_ms : Nat) (cb : Action) (msg : List Char)
    (hcount : count ≤ 0) :
    (flash_line_pulses env s line count on_ms off_ms on_at_rest).2 =
      ⟨s, [], [], some Err.invalidArgument⟩ ∧
    (env.send_fails (Cmd.timerSetEvent delay_ms 0
        (effEvent s callTok []).1) = false →
      (call_after_delay env s delay_ms cb []).err = none ∧
      (call_after_delay env s delay_ms cb []).state.callback_handler =
        s.callback_handler ++ [⟨(effEvent s callTok []).1, cb⟩]) ∧
    (env.send_fails (Cmd.timerSetEvent delay_ms 0
        (effEvent s (sendTok msg) []).1) = false →
      (send_after_delay env s delay_ms msg []).err = none ∧
      (send_after_delay env s delay_ms msg []).state.callback_handler =
        s.callback_handler ++
          [⟨(effEvent s (sendTok msg) []).1, Action.sendMsg msg⟩]) := by
  refine ⟨by simp [flash_line_pulses, if_pos hcount], ?_, ?_⟩ <;>
    intro hok <;>
    simp [effEvent, get_new_sysevent] at hok <;>
    simp [call_after_delay, send_after_delay, timer_set_event, immsend,
      hok, Eff.andThen, add_single, effEvent, get_new_sysevent]

/-- Witness for invalid_count_rejected_empty_event_minted at count 0 on
the never-failing channel. -/
theorem invalid_count_rejected_witness :
    (0 : Int) ≤ 0 ∧
    (flash_line_pulses envOk sysState 3 0 100 200 false).2 =
      ⟨sysState, [], [], some Err.invalidArgument⟩ ∧
    (call_after_delay envOk sysState 5 (Action.custom 0) []).err =
      none := by
  have t := invalid_count_rejected_empty_event_minted envOk sysState 3 0
    100 200 false 5 (Action.custom 0) ['m'] (by decide)
  exact ⟨by decide, t.1, (t.2.1 (by decide)).1⟩

/-- C8 counterexample: with an empty event argument the two calls mint
different names, so send_after_delay is not the same as call_after_delay
with the bound message send. -/
theorem send_call_empty_event_counterexample :
    ¬send_after_delay envOk sysState 5 ['m'] [] =
      call_after_delay envOk sysState 5 (Action.sendMsg ['m']) [] := by
  decide

/-- C8 amended: for every nonempty event argument, send_after_delay is
exactly call_after_delay with the bound message send: same state, sends
and outcome; on a working channel it sends one TimerSetEvent with the
delay, reload count 0 and the event name, and appends one single-shot
registration of the message send under that name. -/
theorem send_after_delay_refines_call (env : Env) (s : ApiState)
    (delay_ms : Nat) (msg event : List Char) (h : ¬event = []) :
    send_after_delay env s delay_ms msg event =
      call_after_delay env s delay_ms (Action.sendMsg msg) event ∧
    (env.send_fails (Cmd.timerSetEvent delay_ms 0 event) = false →
      (send_after_delay env s delay_ms msg event).sent =
        [Cmd.timerSetEvent delay_ms 0 event] ∧
      (send_after_delay env s delay_ms msg
          event).state.callback_handler =
        s.callback_handler ++ [⟨event, Action.sendMsg msg⟩] ∧
      (send_after_delay env s delay_ms msg event).err = none) := by
  constructor
  · simp [send_after_delay, call_after_delay, effEvent, h]
  · intro hok
    simp [send_after_delay, effEvent, h, timer_set_event, immsend, hok,
      Eff.andThen, add_single]

/-- Witness for send_after_delay_refines_call at a one-character event
name on the never-failing channel. -/
theorem send_after_delay_refines_call_witness :
    ¬(['e'] : List Char) = [] ∧
    send_after_delay envOk sysState 5 ['m'] ['e'] =
      call_after_delay envOk sysState 5 (Action.sendMsg ['m']) ['e'] :=
  ⟨by decide,
   (send_after_delay_refines_call envOk sysState 5 ['m'] ['e']
     (by decide)).1⟩

/-! Decimal names: machinery to recover the mint counter from a minted
name, giving injectivity of the namer. -/

/-- Numeric value of a digit character. -/
def chVal (c : Char) : Nat := c.toNat - 48

/-- Value of a most-significant-first digit string. -/
def digitsVal (l : List Char) : Nat :=
  l.foldl (fun a c => 10 * a + chVal c) 0

/-- Boolean digit test. -/
def isDig (c : Char) : Bool :=
  decide (48 ≤ c.toNat) && decide (c.toNat ≤ 57)

/-- Counter encoded in a minted name: the digit run right after the
prefix. -/
def counterOf (pfx name : List Char) : Nat :=
  digitsVal ((name.drop pfx.length).takeWhile isDig)

lemma mem_decCharsGo (fuel : Nat) : ∀ n c, c ∈ decCharsGo fuel n →
    ∃ m, m < 10 ∧ c = Char.ofNat (48 + m) := by
  induction fuel with
  | zero => intro n c h; simp [decCharsGo] at h
  | succ k ih =>
      intro n c h
      simp only [decCharsGo] at h
      by_cases hn : n < 10
      · rw [if_pos hn] at h
        simp at h
        exact ⟨n, hn, h⟩
      · rw [if_neg hn] at h
        rcases List.mem_append.mp h with h1 | h2
        · exact ih _ _ h1
        · simp at h2
          exact ⟨n % 10, by omega, h2⟩

lemma mem_decChars (n : Nat) (c : Char) (h : c ∈ decChars n) :
    ∃ m, m < 10 ∧ c = Char.ofNat (48 + m) :=
  mem_decCharsGo (n + 1) n c h

lemma chVal_digit (m : Nat) (h : m < 10) :
    chVal (Char.ofNat (48 + m)) = m := by
  interval_cases m <;> decide

lemma isDig_digit (m : Nat) (h : m < 10) :
    isDig (Char.ofNat (48 + m)) = true := by
  interval_cases m <;> decide

lemma digit_not_space (m : Nat) (h : m < 10) :
    (Char.ofNat (48 + m) == ' ') = false := by
  interval_cases m <;> decide

lemma digitsVal_snoc (l : List Char) (c : Char) :
    digitsVal (l ++ [c]) = 10 * digitsVal l + chVal c := by
  simp [digitsVal, List.foldl_append]

lemma decCharsGo_val (fuel : Nat) : ∀ n, n < 10 ^ fuel →
    digitsVal (decCharsGo fuel n) = n := by
  induction fuel with
  | zero =>
      intro n h
      rw [pow_zero] at h
      have hn : n = 0 := by omega
      subst hn
      rfl
  | succ k ih =>
      intro n h
      simp only [decCharsGo]
      by_cases hn : n < 10
      · rw [if_pos hn]
        simp [digitsVal, chVal_digit n hn]
      · rw [if_neg hn, digitsVal_snoc,
          chVal_digit (n % 10) (by omega), ih (n / 10) ?_]
        · omega
        · rw [pow_succ] at h
          omega

lemma decChars_val (n : Nat) : digitsVal (decChars n) = n := by
  have h2 : n < 2 ^ n := Nat.lt_two_pow n
  have h3 : (2:Nat) ^ n ≤ 10 ^ n := Nat.pow_le_pow_left (by omega) n
  have h4 : (10:Nat) ^ n ≤ 10 ^ (n + 1) :=
    Nat.pow_le_pow_right (by omega) (by omega)
  exact decCharsGo_val (n + 1) n (by omega)

lemma decChars_all_isDig (n : Nat) : ∀ c ∈ decChars n, isDig c = true := by
  intro c hc
  obtain ⟨m, hm, rfl⟩ := mem_decChars n c hc
  exact isDig_digit m hm

lemma stripSpaces_decChars (n : Nat) :
    stripSpaces (decChars n) = decChars n := by
  apply List.filter_eq_self.mpr
  intro c hc
  obtain ⟨m, hm, rfl⟩ := mem_decChars n c hc
  simp [digit_not_space m hm]

lemma stripSpaces_append (l1 l2 : List Char) :
    stripSpaces (l1 ++ l2) = stripSpaces l1 ++ stripSpaces l2 := by
  simp [stripSpaces, List.filter_append]

lemma takeWhile_append_of_all {p : Char → Bool} (l1 l2 : List Char)
    (h : ∀ c ∈ l1, p c = true) :
    (l1 ++ l2).takeWhile p = l1 ++ l2.takeWhile p := by
  induction l1 with
  | nil => simp
  | cons a l ih =>
      simp only [List.cons_append, List.takeWhile_cons,
        h a (by simp)]
      rw [ih fun c hc => h c (by simp [hc])]
      simp

/-- A minted name is the prefix, the digits of the new counter, then a
tail that starts with an underscore when tokens were supplied; the tail
never starts with a digit. -/
lemma mint_name_eq (s : ApiState) (args : List (List Char)) :
    ∃ t, (get_new_sysevent s args).1 =
        s.sysevent_pfx ++ (decChars (s.sysevent_counter + 1) ++ t) ∧
      t.takeWhile isDig = [] := by
  cases args with
  | nil =>
      refine ⟨[], ?_, rfl⟩
      simp [get_new_sysevent, joinUnderscore, stripSpaces_decChars]
  | cons a as =>
      refine ⟨'_' :: stripSpaces (joinUnderscore (a :: as)), ?_, ?_⟩
      · have hju : joinUnderscore (decChars (s.sysevent_counter + 1)
            :: a :: as) = decChars (s.sysevent_counter + 1) ++
            '_' :: joinUnderscore (a :: as) := rfl
        have hsp : stripSpaces ('_' :: joinUnderscore (a :: as)) =
            '_' :: stripSpaces (joinUnderscore (a :: as)) := by
          simp [stripSpaces]
        simp [get_new_sysevent, hju, stripSpaces_append,
          stripSpaces_decChars, hsp]
      · simp [List.takeWhile_cons, isDig]

/-- Extracting the counter from a minted name recovers the incremented
counter. -/
lemma counterOf_mint (s : ApiState) (args : List (List Char)) :
    counterOf s.sysevent_pfx (get_new_sysevent s args).1 =
      s.sysevent_counter + 1 := by
  obtain ⟨t, heq, ht⟩ := mint_name_eq s args
  rw [counterOf, heq, List.drop_left,
    takeWhile_append_of_all _ _
      (decChars_all_isDig (s.sysevent_counter + 1)),
    ht, List.append_nil, decChars_val]

/-- Every minted name begins with the configured prefix. -/
lemma mint_name_has_pfx (s : ApiState) (args : List (List Char)) :
    s.sysevent_pfx <+: (get_new_sysevent s args).1 :=
  ⟨stripSpaces (joinUnderscore
    (decChars (s.sysevent_counter + 1) :: args)), rfl⟩

/-! An operational layer: one inductive of external operations, so that
properties across arbitrary call sequences (counter monotonicity,
callbacks firing only at deliveries) can be stated. -/

/-- One external operation on a WhiskerApi instance. -/
inductive Op where
  | mint (args : List (List Char))
  | sendAfter (delay_ms : Nat) (msg event : List Char)
  | callAfter (delay_ms : Nat) (cb : Action) (event : List Char)
  | flashPulses (line : Nat) (count : Int) (on_ms off_ms : Nat)
      (on_at_rest : Bool)
  | flashPingPong (line : Nat) (on_now : Bool) (seq : List Nat)
  | setLine (line : Nat) (onb : Bool)
  | timerSet (event : List Char) (duration_ms reload_count : Nat)
  | deliver (event : List Char)

/-- Effect of one operation. A deliver is an inbound event handed to
process_backend_event; everything else is a direct API call. -/
def step (env : Env) (s : ApiState) : Op → Eff
  | Op.mint args => ⟨(get_new_sysevent s args).2, [], [], none⟩
  | Op.sendAfter d msg ev => send_after_delay env s d msg ev
  | Op.callAfter d cb ev => call_after_delay env s d cb ev
  | Op.flashPulses line count on_ms off_ms r =>
      (flash_line_pulses env s line count on_ms off_ms r).2
  | Op.flashPingPong line on_now seq =>
      flash_line_ping_pong env s line on_now seq
  | Op.setLine line b => line_set_state env s line b
  | Op.timerSet ev d r => timer_set_event env s ev d r
  | Op.deliver ev => (process_backend_event env s ev).2

/-- Run a sequence of operations, stopping at the first raise. -/
def runOps (env : Env) (s : ApiState) : List Op → Eff
  | [] => ⟨s, [], [], none⟩
  | op :: ops => (step env s op).andThen fun s2 => runOps env s2 ops

/-! Counter monotonicity through every operation. -/

lemma immsend_state (env : Env) (s : ApiState) (c : Cmd) :
    (immsend env s c).state = s := by
  unfold immsend
  split <;> rfl

lemma counter_andThen {c : Nat} {e1 : Eff} {f : ApiState → Eff}
    (h1 : c ≤ e1.state.sysevent_counter)
    (h2 : ∀ s, s.sysevent_counter ≤ (f s).state.sysevent_counter) :
    c ≤ (e1.andThen f).state.sysevent_counter := by
  cases herr : e1.err <;> simp only [Eff.andThen, herr]
  · exact h1.trans (h2 _)
  · exact h1

lemma counter_le_effEvent (s : ApiState) (args : List (List Char))
    (ev : List Char) :
    s.sysevent_counter ≤ (effEvent s args ev).2.sysevent_counter := by
  unfold effEvent
  split <;> simp [get_new_sysevent]

lemma counter_le_call (env : Env) (s : ApiState) (d : Nat) (cb : Action)
    (ev : List Char) :
    s.sysevent_counter ≤
      (call_after_delay env s d cb ev).state.sysevent_counter := by
  unfold call_after_delay
  refine counter_andThen ?_ fun s2 => ?_
  · rw [timer_set_event, immsend_state]
    exact counter_le_effEvent s callTok ev
  · simp [add_single]

lemma counter_le_send (env : Env) (s : ApiState) (d : Nat)
    (msg ev : List Char) :
    s.sysevent_counter ≤
      (send_after_delay env s d msg ev).state.sysevent_counter := by
  unfold send_after_delay
  refine counter_andThen ?_ fun s2 => ?_
  · rw [timer_set_event, immsend_state]
    exact counter_le_effEvent s (sendTok msg) ev
  · simp [add_single]

lemma counter_le_ping_pong (env : Env) (s : ApiState) (line : Nat)
    (on_now : Bool) (seq : List Nat) :
    s.sysevent_counter ≤
      (flash_line_ping_pong env s line on_now seq).state.sysevent_counter := by
  unfold flash_line_ping_pong
  refine counter_andThen ?_ fun s2 => ?_
  · cases on_now <;>
      simp [line_on, line_off, line_set_state, immsend_state]
  · cases seq with
    | nil => simp
    | cons d rest =>
        refine le_trans ?_ (counter_le_call env _ d _ _)
        simp [get_new_sysevent]

lemma counter_le_flash_pulses (env : Env) (s : ApiState) (line : Nat)
    (count : Int) (on_ms off_ms : Nat) (r : Bool) :
    s.sysevent_counter ≤
      (flash_line_pulses env s line count on_ms off_ms
        r).2.state.sysevent_counter := by
  unfold flash_line_pulses
  split
  · simp
  · exact counter_le_ping_pong env s line _ _

lemma counter_le_runAction (env : Env) (s : ApiState) (a : Action) :
    s.sysevent_counter ≤
      (runAction env s a).state.sysevent_counter := by
  cases a with
  | sendMsg msg => rw [runAction, immsend_state]
  | pingPong line on_now seq => exact counter_le_ping_pong env s line on_now seq
  | custom t => simp [runAction]

lemma counter_le_runRegs (env : Env) (l : List Registration) :
    ∀ s : ApiState, s.sysevent_counter ≤
      (runRegs env s l).state.sysevent_counter := by
  induction l with
  | nil => intro s; simp [runRegs]
  | cons r rs ih =>
      intro s
      simp only [runRegs]
      cases herr : (runAction env s r.action).err <;> simp only
      · exact le_trans (counter_le_runAction env s r.action) (ih _)
      · exact counter_le_runAction env s r.action

lemma counter_le_step (env : Env) (s : ApiState) (op : Op) :
    s.sysevent_counter ≤ (step env s op).state.sysevent_counter := by
  cases op with
  | mint args => simp [step, get_new_sysevent]
  | sendAfter d msg ev => exact counter_le_send env s d msg ev
  | callAfter d cb ev => exact counter_le_call env s d cb ev
  | flashPulses line count on_ms off_ms r =>
      exact counter_le_flash_pulses env s line count on_ms off_ms r
  | flashPingPong line on_now seq =>
      exact counter_le_ping_pong env s line on_now seq
  | setLine line b => rw [step, line_set_state, immsend_state]
  | timerSet ev d r => rw [step, timer_set_event, immsend_state]
  | deliver ev =>
      show s.sysevent_counter ≤
        ((process_backend_event env s ev).2).state.sysevent_counter
      have hr := counter_le_runRegs env (matchedRegs s ev) (removeRegs s ev)
      have hcase : (process_backend_event env s ev).2 =
          runRegs env (removeRegs s ev) (matchedRegs s ev) := by
        simp only [process_backend_event, process_event]
        split <;> rfl
      rw [hcase]
      exact hr

lemma counter_le_runOps (env : Env) (ops : List Op) :
    ∀ s : ApiState, s.sysevent_counter ≤
      (runOps env s ops).state.sysevent_counter := by
  induction ops with
  | nil => intro s; simp [runOps]
  | cons op ops ih =>
      intro s
      exact counter_andThen (counter_le_step env s op) ih

/-! The namer run: successive get_new_sysevent calls with arbitrary
token arguments. -/

/-- Names returned by N successive namer calls with the given token
lists. -/
def mintRun (s : ApiState) : List (List (List Char)) → List (List Char)
  | [] => []
  | args :: rest =>
      (get_new_sysevent s args).1 ::
        mintRun (get_new_sysevent s args).2 rest

lemma mintRun_mem (argss : List (List (List Char))) :
    ∀ (s : ApiState) (x : List Char), x ∈ mintRun s argss →
      s.sysevent_pfx <+: x ∧
      s.sysevent_counter < counterOf s.sysevent_pfx x := by
  induction argss with
  | nil => intro s x hx; simp [mintRun] at hx
  | cons a as ih =>
      intro s x hx
      rcases List.mem_cons.mp hx with rfl | hx2
      · exact ⟨mint_name_has_pfx s a, by rw [counterOf_mint]; omega⟩
      · have h2 := ih (get_new_sysevent s a).2 x hx2
        exact ⟨h2.1, by
          have := h2.2
          simp only [get_new_sysevent] at this
          omega⟩

lemma mintRun_pairwise (argss : List (List (List Char))) :
    ∀ s : ApiState, (mintRun s argss).Pairwise
      (fun a b => counterOf s.sysevent_pfx a <
        counterOf s.sysevent_pfx b) := by
  induction argss with
  | nil => intro s; simp [mintRun]
  | cons a as ih =>
      intro s
      refine List.Pairwise.cons ?_ (ih (get_new_sysevent s a).2)
      intro y hy
      have hmem := (mintRun_mem as (get_new_sysevent s a).2 y hy).2
      rw [counterOf_mint]
      simp only [get_new_sysevent] at hmem
      omega

/-- C7: all names from N namer calls with arbitrary tokens are pairwise
distinct and begin with the configured prefix, and no operation sequence
ever decreases the mint counter. -/
theorem sysevent_names_unique_counter_monotone (env : Env)
    (s : ApiState) (argss : List (List (List Char))) (ops : List Op) :
    (mintRun s argss).Pairwise (fun a b => ¬a = b) ∧
    (∀ x ∈ mintRun s argss, s.sysevent_pfx <+: x) ∧
    s.sysevent_counter ≤ (runOps env s ops).state.sysevent_counter := by
  refine ⟨?_, fun x hx => (mintRun_mem argss s x hx).1,
    counter_le_runOps env ops s⟩
  refine (mintRun_pairwise argss s).imp ?_
  intro a b hlt heq
  rw [heq] at hlt
  omega

/-! Lemmas for the ping-pong step and delivery-only firing. -/

lemma decChars_ne_nil (n : Nat) : ¬decChars n = [] := by
  simp only [decChars, decCharsGo]
  split <;> simp

lemma mint_name_ne_nil (s : ApiState) (args : List (List Char)) :
    ¬(get_new_sysevent s args).1 = [] := by
  obtain ⟨t, heq, _⟩ := mint_name_eq s args
  rw [heq]
  intro hnil
  rcases List.append_eq_nil.mp hnil with ⟨_, h2⟩
  rcases List.append_eq_nil.mp h2 with ⟨h3, _⟩
  exact decChars_ne_nil _ h3

lemma invoked_immsend (env : Env) (s : ApiState) (c : Cmd) :
    (immsend env s c).invoked = [] := by
  unfold immsend
  split <;> rfl

lemma invoked_call (env : Env) (s : ApiState) (d : Nat) (cb : Action)
    (ev : List Char) : (call_after_delay env s d cb ev).invoked = [] := by
  simp only [call_after_delay, Eff.andThen, timer_set_event]
  split
  · rw [invoked_immsend]
  · rw [invoked_immsend]
    rfl

lemma invoked_send (env : Env) (s : ApiState) (d : Nat)
    (msg ev : List Char) :
    (send_after_delay env s d msg ev).invoked = [] := by
  simp only [send_after_delay, Eff.andThen, timer_set_event]
  split
  · rw [invoked_immsend]
  · rw [invoked_immsend]
    rfl

lemma invoked_ping_pong (env : Env) (s : ApiState) (line : Nat)
    (on_now : Bool) (seq : List Nat) :
    (flash_line_ping_pong env s line on_now seq).invoked = [] := by
  simp only [flash_line_ping_pong, Eff.andThen]
  split
  · cases on_now <;>
      simp [line_on, line_off, line_set_state, invoked_immsend]
  · cases on_now <;>
      cases seq <;>
      simp [line_on, line_off, line_set_state, invoked_immsend,
        invoked_call]

lemma invoked_flash_pulses (env : Env) (s : ApiState) (line : Nat)
    (count : Int) (on_ms off_ms : Nat) (r : Bool) :
    (flash_line_pulses env s line count on_ms off_ms r).2.invoked =
      [] := by
  unfold flash_line_pulses
  split
  · rfl
  · exact invoked_ping_pong env s line _ _

lemma runRegs_invoked_mem (env : Env) (l : List Registration) :
    ∀ (s : ApiState) (ev : List Char) (a : Action),
      (ev, a) ∈ (runRegs env s l).invoked →
      ∃ r, r ∈ l ∧ r.event = ev := by
  induction l with
  | nil => intro s ev a h; simp [runRegs] at h
  | cons r rs ih =>
      intro s ev a h
      simp only [runRegs] at h
      cases herr : (runAction env s r.action).err <;>
        rw [herr] at h <;> simp only at h
      · rcases List.mem_cons.mp h with hh | ht
        · exact ⟨r, List.mem_cons_self r rs, (Prod.mk.injEq _ _ _ _ ▸ hh).1.symm ▸ rfl⟩
        · obtain ⟨r2, hr2, hev⟩ := ih _ ev a ht
          exact ⟨r2, List.mem_cons_of_mem r hr2, hev⟩
      · rcases List.mem_singleton.mp h with hh
        exact ⟨r, List.mem_cons_self r rs, congrArg Prod.fst hh.symm⟩

lemma matchedRegs_event (s : ApiState) (event : List Char)
    (r : Registration) (h : r ∈ matchedRegs s event) : r.event = event := by
  simp only [matchedRegs, List.mem_filter] at h
  exact eq_of_beq h.2

/-- C9: a callback is invoked only by delivering an inbound event whose
name is exactly the registered event name; in particular the registering
call_after_delay itself, for any delay including zero, returns without
invoking anything. -/
theorem callback_fires_only_at_delivery (env : Env) (s : ApiState)
    (op : Op) (ev : List Char) (a : Action)
    (h : (ev, a) ∈ (step env s op).invoked) :
    op = Op.deliver ev ∧
    ∀ (d : Nat) (cb : Action) (e2 : List Char),
      (call_after_delay env s d cb e2).invoked = [] := by
  refine ⟨?_, fun d cb e2 => invoked_call env s d cb e2⟩
  cases op with
  | mint args => simp [step] at h
  | sendAfter d msg e2 => rw [step, invoked_send] at h; simp at h
  | callAfter d cb e2 => rw [step, invoked_call] at h; simp at h
  | flashPulses line count on_ms off_ms r =>
      rw [step, invoked_flash_pulses] at h; simp at h
  | flashPingPong line on_now seq =>
      rw [step, invoked_ping_pong] at h; simp at h
  | setLine line b => rw [step, line_set_state, invoked_immsend] at h; simp at h
  | timerSet e2 d r => rw [step, timer_set_event, invoked_immsend] at h; simp at h
  | deliver e2 =>
      have hcase : (process_backend_event env s e2).2 =
          runRegs env (removeRegs s e2) (matchedRegs s e2) := by
        simp only [process_backend_event, process_event]
        split <;> rfl
      rw [step, hcase] at h
      obtain ⟨r, hr, hrev⟩ := runRegs_invoked_mem env _ _ ev a h
      rw [← hrev, matchedRegs_event s e2 r hr]

/-- A registered callback fires at the delivery of its event name. -/
def regState : ApiState :=
  ⟨['s', 'y', 's', '_'], 0, [⟨['e'], Action.custom 7⟩]⟩

/-- Witness for callback_fires_only_at_delivery: a concrete delivery,
and a zero-delay registration that invokes nothing. -/
theorem callback_fires_only_at_delivery_witness :
    (['e'], Action.custom 7) ∈
      (step envOk regState (Op.deliver ['e'])).invoked ∧
    (call_after_delay envOk regState 0 (Action.custom 7)
      ['x']).invoked = [] :=
  ⟨by decide,
   (callback_fires_only_at_delivery envOk regState (Op.deliver ['e'])
     ['e'] (Action.custom 7) (by decide)).2 0 (Action.custom 7) ['x']⟩

/-! Closed forms of the scheduling calls on success and on timer-send
failure, used by the ping-pong step spec. -/

lemma toggle_eq (env : Env) (s : ApiState) (line : Nat) (on_now : Bool)
    (hok : env.send_fails
      (Cmd.lineSetState line (if on_now then VAL_ON else VAL_OFF)) =
        false) :
    (if on_now then line_on env s line else line_off env s line) =
      ⟨s, [Cmd.lineSetState line (if on_now then VAL_ON else VAL_OFF)],
        [], none⟩ := by
  cases on_now <;>
    simp_all [line_on, line_off, line_set_state, immsend]

lemma toggle_fail (env : Env) (s : ApiState) (line : Nat)
    (on_now : Bool)
    (hbad : env.send_fails
      (Cmd.lineSetState line (if on_now then VAL_ON else VAL_OFF)) =
        true) :
    (if on_now then line_on env s line else line_off env s line) =
      ⟨s, [], [], some Err.transportFailure⟩ := by
  cases on_now <;>
    simp_all [line_on, line_off, line_set_state, immsend]

lemma call_after_delay_ok (env : Env) (s : ApiState) (d : Nat)
    (cb : Action) (ev : List Char) (hne : ¬ev = [])
    (hok : env.send_fails (Cmd.timerSetEvent d 0 ev) = false) :
    call_after_delay env s d cb ev =
      ⟨add_single s ev cb, [Cmd.timerSetEvent d 0 ev], [], none⟩ := by
  simp [call_after_delay, effEvent, hne, timer_set_event, immsend, hok,
    Eff.andThen]

lemma call_after_delay_fail (env : Env) (s : ApiState) (d : Nat)
    (cb : Action) (ev : List Char) (hne : ¬ev = [])
    (hbad : env.send_fails (Cmd.timerSetEvent d 0 ev) = true) :
    call_after_delay env s d cb ev =
      ⟨s, [], [], some Err.transportFailure⟩ := by
  simp [call_after_delay, effEvent, hne, timer_set_event, immsend, hbad,
    Eff.andThen]

/-- C4: every successful flash_line_ping_pong call first sends exactly
one immediate LineSetState with the requested polarity; with an empty
sequence it does nothing further, leaving the state untouched (no timer
command, no registration, no minted name); with a nonempty sequence it
sends exactly one TimerSetEvent for the first duration and appends
exactly one registration under the freshly minted name, whose action
re-invokes the ping-pong with the negated polarity and the tail; the
minted name carries the strictly incremented counter, so at most one
timer and one registration per run are outstanding at any instant. -/
theorem flash_ping_pong_step_spec (env : Env) (s : ApiState)
    (line : Nat) (on_now : Bool) (seq : List Nat)
    (h : (flash_line_ping_pong env s line on_now seq).err = none) :
    (seq = [] → flash_line_ping_pong env s line on_now seq =
      ⟨s, [Cmd.lineSetState line (if on_now then VAL_ON else VAL_OFF)],
        [], none⟩) ∧
    (∀ d tail, seq = d :: tail →
      flash_line_ping_pong env s line on_now seq =
        ⟨{ s with
             sysevent_counter := s.sysevent_counter + 1,
             callback_handler := s.callback_handler ++
               [⟨(get_new_sysevent s [decChars line,
                    if on_now then ['o', 'f', 'f'] else ['o', 'n']]).1,
                 Action.pingPong line (!on_now) tail⟩] },
          [Cmd.lineSetState line (if on_now then VAL_ON else VAL_OFF),
           Cmd.timerSetEvent d 0 (get_new_sysevent s [decChars line,
             if on_now then ['o', 'f', 'f'] else ['o', 'n']]).1],
          [], none⟩) ∧
    counterOf s.sysevent_pfx (get_new_sysevent s [decChars line,
        if on_now then ['o', 'f', 'f'] else ['o', 'n']]).1 =
      s.sysevent_counter + 1 := by
  refine ⟨?_, ?_, counterOf_mint s _⟩
  · rintro rfl
    cases hb : env.send_fails
        (Cmd.lineSetState line (if on_now then VAL_ON else VAL_OFF)) with
    | true =>
        rw [flash_line_ping_pong, toggle_fail env s line on_now hb] at h
        simp [Eff.andThen] at h
    | false =>
        rw [flash_line_ping_pong, toggle_eq env s line on_now hb]
        simp [Eff.andThen]
  · rintro d tail rfl
    cases hb : env.send_fails
        (Cmd.lineSetState line (if on_now then VAL_ON else VAL_OFF)) with
    | true =>
        rw [flash_line_ping_pong, toggle_fail env s line on_now hb] at h
        simp [Eff.andThen] at h
    | false =>
        rw [flash_line_ping_pong, toggle_eq env s line on_now hb] at h ⊢
        simp only [Eff.andThen] at h ⊢
        cases hb2 : env.send_fails (Cmd.timerSetEvent d 0
            (get_new_sysevent s [decChars line,
              if on_now then ['o', 'f', 'f'] else ['o', 'n']]).1) with
        | true =>
            rw [call_after_delay_fail env _ d _ _
              (mint_name_ne_nil s _) hb2] at h
            simp [Eff.andThen] at h
        | false =>
            rw [call_after_delay_ok env _ d _ _
              (mint_name_ne_nil s _) hb2]
            simp [Eff.andThen, add_single, get_new_sysevent]

/-- Witness for flash_ping_pong_step_spec: a two-step sequence on the
never-failing channel. -/
theorem flash_ping_pong_step_spec_witness :
    (flash_line_ping_pong envOk sysState 3 true [100, 200]).err =
      none ∧
    flash_line_ping_pong envOk sysState 3 true [100, 200] =
      ⟨{ sysState with
           sysevent_counter := sysState.sysevent_counter + 1,
           callback_handler := sysState.callback_handler ++
             [⟨(get_new_sysevent sysState
                  [decChars 3, ['o', 'f', 'f']]).1,
               Action.pingPong 3 false [200]⟩] },
        [Cmd.lineSetState 3 VAL_ON,
         Cmd.timerSetEvent 100 0 (get_new_sysevent sysState
           [decChars 3, ['o', 'f', 'f']]).1],
        [], none⟩ :=
  ⟨by decide,
   (flash_ping_pong_step_spec envOk sysState 3 true [100, 200]
     (by decide)).2.1 100 [200] rfl⟩

end Whisker
